import Mathlib

/-
Verification of the `echoes` terminal audio visualizer (src/src/main.rs).

The core under scrutiny is `Visualizer::render`: band aggregation, the
fast-attack / slow-decay peak tracker, inter-frame smoothing, and the text
frame composer.  The embedding below translates that code into Lean.

Modelling conventions:
* `f32` values are modelled as exact rationals (`ℚ`).  All formulas in the
  code (and the spec) are exact in this idealization; float rounding is
  abstracted away, matching the spec's "within float tolerance" reading.
* The `u32` / `usize` counters are modelled as `ℕ`; their overflow is
  unreachable for any buffer a real process can hold.
* The bytes written to stdout (the clear-screen prefix and the composed
  frame) are modelled by the `Option (List (List Cell))` component of
  `render`'s result: `none` means nothing at all was written (the empty
  buffer early-return happens before the clear-prefix print), `some fr`
  means the clear prefix plus the frame `fr` were written.
-/

namespace Echoes

/-- `const NUM_BARS: usize = 64` (main.rs line 71). -/
def NUM_BARS : ℕ := 64

/-- `const MAX_HEIGHT: usize = 21`, aliased `TOTAL_ROWS` (lines 72, 165). -/
def TOTAL_ROWS : ℕ := 21

/-- The persistent renderer state: `struct Visualizer { peak: f32, prev_columns: Vec<(f32, f32)> }` (lines 57-60). -/
structure Visualizer where
  peak : ℚ
  prev_columns : List (ℚ × ℚ)
deriving DecidableEq, Repr

/-- `Visualizer::new` (lines 63-68): `peak = 0.25`, `prev_columns` empty. -/
def Visualizer.new : Visualizer := ⟨1/4, []⟩

/-- Accumulator of the per-chunk loop (lines 99-104): running positive peak,
sum and count, and the same for negative samples (by magnitude). -/
structure ChunkAcc where
  pos_peak : ℚ
  pos_sum : ℚ
  pos_count : ℕ
  neg_peak : ℚ
  neg_sum : ℚ
  neg_count : ℕ
deriving DecidableEq, Repr

/-- One iteration of the sample loop (lines 106-117): a strictly positive
sample updates the positive statistics, a strictly negative one updates the
negative statistics via its magnitude, and a zero sample touches neither. -/
def stepChunk (a : ChunkAcc) (sample : ℚ) : ChunkAcc :=
  if sample > 0 then
    ChunkAcc.mk (max a.pos_peak sample) (a.pos_sum + sample) (a.pos_count + 1)
      a.neg_peak a.neg_sum a.neg_count
  else if sample < 0 then
    ChunkAcc.mk a.pos_peak a.pos_sum a.pos_count
      (max a.neg_peak (-sample)) (a.neg_sum + (-sample)) (a.neg_count + 1)
  else a

/-- Per-chunk band computation (lines 99-134): fold the sample loop, then
`level = 0.75 * peak + 0.25 * avg` per polarity when the count is positive,
`0` otherwise. -/
def bandOfChunk (chunk : List ℚ) : ℚ × ℚ :=
  let a := chunk.foldl stepChunk (ChunkAcc.mk 0 0 0 0 0 0)
  let pos_level := if a.pos_count > 0 then
      let avg := a.pos_sum / (a.pos_count : ℚ)
      (3/4) * a.pos_peak + (1/4) * avg
    else 0
  let neg_level := if a.neg_count > 0 then
      let avg := a.neg_sum / (a.neg_count : ℚ)
      (3/4) * a.neg_peak + (1/4) * avg
    else 0
  (pos_level, neg_level)

/-- `chunk_size = (samples.len() + NUM_BARS - 1) / NUM_BARS` (line 80). -/
def chunkSize (len : ℕ) : ℕ := (len + NUM_BARS - 1) / NUM_BARS

/-- The slice `&samples[start..min(start + chunk_size, len)]` for bar `i`
(lines 85-92), as a drop/take on the sample list. -/
def chunkAt (samples : List ℚ) (i : ℕ) : List ℚ :=
  (samples.drop (i * chunkSize samples.length)).take (chunkSize samples.length)

/-- Band for bar `i` (lines 84-97): out-of-range or empty chunks push
`(0.0, 0.0)`, otherwise the chunk statistics are computed. -/
def bandAt (samples : List ℚ) (i : ℕ) : ℚ × ℚ :=
  if i * chunkSize samples.length ≥ samples.length then (0, 0)
  else if (chunkAt samples i).isEmpty then (0, 0)
  else bandOfChunk (chunkAt samples i)

/-- The `columns` vector built by the bar loop (lines 81-135): always exactly
`NUM_BARS` entries. -/
def computeColumns (samples : List ℚ) : List (ℚ × ℚ) :=
  (List.range NUM_BARS).map (bandAt samples)

/-- `frame_peak` (lines 82, 133): the running maximum of
`max(pos_level, neg_level)` over the bars, starting from `0.0`.  The source
skips the update for out-of-range bars; folding their `(0, 0)` through `max`
is identical because the running value never drops below `0`. -/
def framePeak (samples : List ℚ) : ℚ :=
  (computeColumns samples).foldl (fun acc b => max acc (max b.1 b.2)) 0

/-- Peak tracker update (lines 137-142): instant attack when
`frame_peak > peak`, otherwise `peak * DECAY + frame_peak * (1 - DECAY)`
with `DECAY = 0.92`. -/
def updatePeak (peak frame_peak : ℚ) : ℚ :=
  if frame_peak > peak then frame_peak
  else peak * (23/25) + frame_peak * (1 - 23/25)

/-- `let peak = self.peak.max(1e-3)` (line 144): the clamped local copy used
as the normalization denominator.  Note the stored field is NOT clamped. -/
def effectivePeak (peak : ℚ) : ℚ := max peak (1/1000)

/-- `let blend = 0.65` (line 156). -/
def blend : ℚ := 13/20

/-- One smoothing blend (lines 157-158): `blend * norm + (1 - blend) * prev`. -/
def smoothStep (norm prev : ℚ) : ℚ := blend * norm + (1 - blend) * prev

/-- `f32::clamp(self, 0.0, 1.0)` = `min (max self 0) 1` (lines 154-155). -/
def clamp01 (q : ℚ) : ℚ := min (max q 0) 1

/-- The `smoothed` vector (lines 144-161): normalize each band by the clamped
effective peak, clamp into `[0,1]`, and blend against the previous column
values (reset to `NUM_BARS` zero pairs when the stored length mismatches,
lines 146-148). -/
def smoothedColumns (v : Visualizer) (samples : List ℚ) : List (ℚ × ℚ) :=
  let peak := effectivePeak (updatePeak v.peak (framePeak samples))
  let prev := if v.prev_columns.length ≠ NUM_BARS then
      List.replicate NUM_BARS ((0 : ℚ), (0 : ℚ))
    else v.prev_columns
  ((computeColumns samples).zip prev).map (fun pb =>
    (smoothStep (clamp01 (pb.1.1 / peak)) pb.2.1,
     smoothStep (clamp01 (pb.1.2 / peak)) pb.2.2))

/-- The five colors of `color_for` (lines 205-218). -/
inductive Color where
  | teal
  | green
  | yellow
  | orange
  | red
deriving DecidableEq, Repr

/-- `color_for` (lines 205-218): `level.powf(0.6)` bucketed at
0.2 / 0.4 / 0.6 / 0.8.  For `level ≥ 0` the real comparison
`level^(3/5) < t` is equivalent to `level^3 < t^5`, which is exact over `ℚ`.
For `level < 0`, Rust's `powf` yields NaN, every `<` test is false, and the
function falls through to red; the sign test reproduces that behaviour. -/
def color_for (level : ℚ) : Color :=
  if level < 0 then .red
  else if level ^ 3 < (1/5) ^ 5 then .teal
  else if level ^ 3 < (2/5) ^ 5 then .green
  else if level ^ 3 < (3/5) ^ 5 then .yellow
  else if level ^ 3 < (4/5) ^ 5 then .orange
  else .red

/-- A rendered character cell: blank, the center divider `─`, or a colored
fill block. -/
inductive Cell where
  | blank
  | divider
  | filled (c : Color)
deriving DecidableEq, Repr

/-- `(x.round()) as usize` for the row counts (lines 172-173): `f32::round`
rounds half away from zero, and the `as usize` cast clamps negatives to 0. -/
def rustRoundToUsize (q : ℚ) : ℕ :=
  if 0 ≤ q then (⌊q + 1/2⌋).toNat else 0

/-- `mid_row = TOTAL_ROWS / 2` (line 166), integer division. -/
def mid_row : ℕ := TOTAL_ROWS / 2

/-- `top_rows = mid_row` (line 167). -/
def top_rows : ℕ := mid_row

/-- The cell emitted for `row` and the smoothed pair `(pos, neg)`
(lines 170-196).  `top_rows.saturating_sub(pos_rows)` is `ℕ` subtraction. -/
def cellFor (row : ℕ) (pn : ℚ × ℚ) : Cell :=
  let pos_rows := rustRoundToUsize (pn.1 * (top_rows : ℚ))
  let neg_rows := rustRoundToUsize (pn.2 * (top_rows : ℚ))
  if row < mid_row then
    let threshold := top_rows - pos_rows
    if row ≥ threshold then .filled (color_for pn.1) else .blank
  else if row = mid_row then .divider
  else
    let offset := row - mid_row - 1
    if offset < neg_rows then .filled (color_for pn.2) else .blank

/-- The composed text frame (lines 168-198): `TOTAL_ROWS` rows, one cell per
smoothed column. -/
def composeFrame (smoothed : List (ℚ × ℚ)) : List (List Cell) :=
  (List.range TOTAL_ROWS).map (fun row => smoothed.map (cellFor row))

/-- `Visualizer::render` (lines 70-202).  An empty buffer returns before
anything is printed (lines 74-76), so the result frame is `none` and the
state is untouched.  Otherwise the new stored peak is `updatePeak` (without
the 1e-3 clamp, lines 137-142), `prev_columns` is overwritten with the
smoothed vector (line 163), and the frame (preceded by the clear-screen
prefix) is written. -/
def render (v : Visualizer) (samples : List ℚ) :
    Visualizer × Option (List (List Cell)) :=
  if samples.isEmpty then (v, none)
  else
    (Visualizer.mk (updatePeak v.peak (framePeak samples)) (smoothedColumns v samples),
     some (composeFrame (smoothedColumns v samples)))

/-- Repeated render calls, as performed once per decoded packet by the
`decode_file` loop (lines 37-54); only the state is tracked. -/
def renderSeq (v : Visualizer) (bufs : List (List ℚ)) : Visualizer :=
  bufs.foldl (fun st b => (render st b).1) v

/-- The 64-sample buffer alternating `+1.0, -1.0` from the spec's scenario. -/
def altBuf : List ℚ := (List.range NUM_BARS).map (fun i => if i % 2 = 0 then (1 : ℚ) else -1)

/-! Generic helper lemmas about folds used by the pipeline. -/

lemma le_foldl_max (l : List ℚ) (a : ℚ) : a ≤ l.foldl max a := by
  induction l generalizing a with
  | nil => exact le_refl a
  | cons x xs ih => exact le_trans (le_max_left a x) (ih (max a x))

lemma foldl_max_le (l : List ℚ) (a B : ℚ) (ha : a ≤ B) (h : ∀ x ∈ l, x ≤ B) :
    l.foldl max a ≤ B := by
  induction l generalizing a with
  | nil => exact ha
  | cons x xs ih =>
    exact ih (max a x) (max_le ha (h x (List.mem_cons_self x xs)))
      (fun y hy => h y (List.mem_cons_of_mem x hy))

lemma mem_le_foldl_max (l : List ℚ) (a x : ℚ) (hx : x ∈ l) : x ≤ l.foldl max a := by
  induction l generalizing a with
  | nil => cases hx
  | cons y ys ih =>
    rcases List.mem_cons.mp hx with h | h
    · subst h; exact le_trans (le_max_right a x) (le_foldl_max ys (max a x))
    · exact ih (max a y) h

lemma sum_le_length_mul (l : List ℚ) (M : ℚ) (h : ∀ x ∈ l, x ≤ M) :
    l.sum ≤ (l.length : ℚ) * M := by
  induction l with
  | nil => simp
  | cons x xs ih =>
    have h1 : x ≤ M := h x (List.mem_cons_self x xs)
    have h2 : xs.sum ≤ (xs.length : ℚ) * M := ih (fun y hy => h y (List.mem_cons_of_mem x hy))
    simp only [List.sum_cons, List.length_cons]
    push_cast
    linarith

lemma le_foldl_pairmax (l : List (ℚ × ℚ)) (a : ℚ) :
    a ≤ l.foldl (fun acc b => max acc (max b.1 b.2)) a := by
  induction l generalizing a with
  | nil => exact le_refl a
  | cons x xs ih => exact le_trans (le_max_left a _) (ih _)

lemma foldl_pairmax_le (l : List (ℚ × ℚ)) (a B : ℚ) (ha : a ≤ B)
    (h : ∀ b ∈ l, b.1 ≤ B ∧ b.2 ≤ B) :
    l.foldl (fun acc b => max acc (max b.1 b.2)) a ≤ B := by
  induction l generalizing a with
  | nil => exact ha
  | cons x xs ih =>
    have hx := h x (List.mem_cons_self x xs)
    exact ih _ (max_le ha (max_le hx.1 hx.2)) (fun y hy => h y (List.mem_cons_of_mem x hy))

lemma foldl_pairmax_zero (l : List (ℚ × ℚ)) (h : ∀ b ∈ l, b = ((0 : ℚ), (0 : ℚ))) :
    l.foldl (fun acc b => max acc (max b.1 b.2)) 0 = 0 :=
  le_antisymm
    (foldl_pairmax_le l 0 0 (le_refl 0)
      (fun b hb => by rw [h b hb]; exact ⟨le_refl 0, le_refl 0⟩))
    (le_foldl_pairmax l 0)

/-! Lemmas about all-zero buffers: the bander yields zero bands and a zero
frame peak, so the peak tracker takes the decay branch. -/

lemma foldl_stepChunk_zeros (c : List ℚ) (a : ChunkAcc) (h : ∀ x ∈ c, x = 0) :
    c.foldl stepChunk a = a := by
  induction c generalizing a with
  | nil => rfl
  | cons x xs ih =>
    have hx : x = 0 := h x (List.mem_cons_self x xs)
    have hstep : stepChunk a x = a := by
      simp [stepChunk, hx]
    rw [List.foldl_cons, hstep]
    exact ih a (fun y hy => h y (List.mem_cons_of_mem x hy))

lemma mem_chunkAt_mem (samples : List ℚ) (i : ℕ) (x : ℚ) (hx : x ∈ chunkAt samples i) :
    x ∈ samples :=
  List.mem_of_mem_drop (List.mem_of_mem_take hx)

lemma bandAt_zeros (s : List ℚ) (i : ℕ) (h : ∀ x ∈ s, x = 0) :
    bandAt s i = ((0 : ℚ), (0 : ℚ)) := by
  unfold bandAt
  split
  · rfl
  · split
    · rfl
    · unfold bandOfChunk
      rw [foldl_stepChunk_zeros _ _ (fun x hx => h x (mem_chunkAt_mem s i x hx))]
      simp

lemma framePeak_zeros (s : List ℚ) (h : ∀ x ∈ s, x = 0) : framePeak s = 0 := by
  unfold framePeak
  apply foldl_pairmax_zero
  intro b hb
  rcases List.mem_map.mp hb with ⟨i, _, hi⟩
  rw [← hi, bandAt_zeros s i h]

lemma framePeak_nonneg (s : List ℚ) : 0 ≤ framePeak s :=
  le_foldl_pairmax _ 0

lemma render_state_nonempty (v : Visualizer) (s : List ℚ) (hs : s ≠ []) :
    (render v s).1 = Visualizer.mk (updatePeak v.peak (framePeak s)) (smoothedColumns v s) := by
  cases s with
  | nil => exact absurd rfl hs
  | cons x xs => rfl

lemma renderSeq_zeros (bufs : List (List ℚ)) (v : Visualizer) (h0 : 0 ≤ v.peak)
    (hb : ∀ b ∈ bufs, b ≠ [] ∧ ∀ x ∈ b, x = 0) :
    (renderSeq v bufs).peak = v.peak * (23/25) ^ bufs.length := by
  induction bufs generalizing v with
  | nil => simp [renderSeq]
  | cons b rest ih =>
    have hbb := hb b (List.mem_cons_self b rest)
    have hfp : framePeak b = 0 := framePeak_zeros b hbb.2
    have hstate := render_state_nonempty v b hbb.1
    have hpeak : ((render v b).1).peak = v.peak * (23/25) := by
      rw [hstate]
      simp only [updatePeak, hfp]
      rw [if_neg (by linarith)]
      ring
    have hrest : renderSeq v (b :: rest) = renderSeq (render v b).1 rest := rfl
    rw [hrest, ih (render v b).1 (by rw [hpeak]; positivity)
      (fun c hc => hb c (List.mem_cons_of_mem b hc))]
    rw [hpeak, List.length_cons]
    ring

/-- C3: calling render with an empty buffer is a complete no-op: the state is
returned bit-identically and nothing (not even the clear-screen prefix,
which is printed only after the emptiness check) is written. -/
theorem render_empty_noop : ∀ v : Visualizer, render v [] = (v, none) :=
  fun _ => rfl

/-- C6: whenever the computed frame peak strictly exceeds the stored peak,
the stored peak after the render call equals the frame peak exactly
(instant attack). -/
theorem peak_instant_attack (v : Visualizer) (s : List ℚ) (hs : s ≠ [])
    (h : framePeak s > v.peak) : ((render v s).1).peak = framePeak s := by
  rw [render_state_nonempty v s hs]
  simp [updatePeak, h]

lemma framePeak_single_one : framePeak [(1 : ℚ)] = 1 := by
  norm_num [framePeak, computeColumns, bandAt, chunkAt, chunkSize, bandOfChunk, stepChunk,
    NUM_BARS, List.range_succ]

/-- Witness for peak_instant_attack: a fresh renderer (peak 0.25) on the
one-sample buffer `[1.0]` has frame peak `1 > 1/4` and stores peak `1`. -/
theorem peak_instant_attack_witness :
    Visualizer.new.peak < framePeak [(1 : ℚ)] ∧
      ((render Visualizer.new [(1 : ℚ)]).1).peak = framePeak [(1 : ℚ)] :=
  ⟨by rw [framePeak_single_one]; norm_num [Visualizer.new],
   peak_instant_attack Visualizer.new [(1 : ℚ)] (by simp)
     (by rw [framePeak_single_one]; norm_num [Visualizer.new])⟩

/-- C7: the smoother computes `new = 0.65 * norm + 0.35 * prev`, and feeding
the same normalized input `x` every frame starting from `prev = 0` yields
`x * (1 - 0.35 ^ k)` after `k` frames, which converges to `x`. -/
theorem smoothing_blend_and_convergence :
    (∀ norm prev : ℚ, smoothStep norm prev = 13/20 * norm + 7/20 * prev) ∧
    (∀ (x : ℚ) (k : ℕ), (fun p => smoothStep x p)^[k] 0 = x * (1 - (7/20) ^ k)) := by
  constructor
  · intro n p
    simp only [smoothStep, blend]
    ring
  · intro x k
    induction k with
    | zero => simp
    | succ k ih =>
      rw [Function.iterate_succ_apply', ih]
      simp only [smoothStep, blend]
      ring

/-- C1 (amended): the normalization denominator actually used by the
smoother — the clamped local copy `effectivePeak` of the updated peak — is
always at least `1e-3`.  The stored `peak` field itself is not clamped and
can fall below the floor (see the counterexample). -/
theorem effective_peak_ge_floor (v : Visualizer) (s : List ℚ) :
    1/1000 ≤ effectivePeak (updatePeak v.peak (framePeak s)) :=
  le_max_right _ _

/-- Counterexample to C1 as stated: after 67 render calls on the one-sample
silent buffer `[0.0]`, the stored `peak` field of a fresh renderer has
decayed to `0.25 * 0.92^67 < 1e-3`. -/
theorem peak_field_below_floor_after_silence :
    (renderSeq Visualizer.new (List.replicate 67 [(0 : ℚ)])).peak < 1/1000 := by
  have h := renderSeq_zeros (List.replicate 67 [(0 : ℚ)]) Visualizer.new
    (by norm_num [Visualizer.new])
    (by intro b hb
        rw [List.eq_of_mem_replicate hb]
        exact ⟨by simp, by intro x hx; simpa using hx⟩)
  rw [h]
  norm_num [Visualizer.new]

set_option maxRecDepth 1000000
set_option maxHeartbeats 4000000

/-- Counterexample to C2 as stated: in the scenario (fresh renderer, 64
samples alternating `+1.0, -1.0`) each band holds exactly one sample, so
band 0 has no negative samples at all: its smoothed negative polarity is
`0`, not `0.65`. -/
theorem alt_buffer_band_not_both_polarities :
    ((render Visualizer.new altBuf).1).prev_columns.getD 0 ((0 : ℚ), (0 : ℚ)) ≠
      ((13 : ℚ)/20, (13 : ℚ)/20) := by
  norm_num [render, Visualizer.new, smoothedColumns, framePeak, computeColumns, bandAt, chunkAt,
    chunkSize, bandOfChunk, stepChunk, altBuf, updatePeak, effectivePeak, smoothStep, blend,
    clamp01, NUM_BARS, List.range_succ, List.replicate_succ, List.zip_cons_cons, max_def, min_def]

/-- C2 (amended): for the 64-sample buffer alternating `+1.0, -1.0` on a
fresh renderer, `frame_peak = 1 > 0.25` so the stored peak becomes `1.0`;
since `chunk_size = 1`, each band sees a single sample, so even-indexed
bands carry `(1, 0)` and odd-indexed ones `(0, 1)` before smoothing, and
after smoothing from `prev = 0` the active polarity is `0.65` and the other
polarity `0`. -/
theorem alt_buffer_scenario :
    framePeak altBuf = 1 ∧
    ((render Visualizer.new altBuf).1).peak = 1 ∧
    ((render Visualizer.new altBuf).1).prev_columns =
      (List.range NUM_BARS).map
        (fun i => if i % 2 = 0 then ((13 : ℚ)/20, (0 : ℚ)) else ((0 : ℚ), (13 : ℚ)/20)) := by
  refine ⟨?_, ?_, ?_⟩ <;>
    norm_num [render, Visualizer.new, smoothedColumns, framePeak, computeColumns, bandAt, chunkAt,
      chunkSize, bandOfChunk, stepChunk, altBuf, updatePeak, effectivePeak, smoothStep, blend,
      clamp01, NUM_BARS, List.range_succ, List.replicate_succ, List.zip_cons_cons, max_def, min_def]

/-! Refinement of the bander: the source's six-accumulator fold equals the
spec's description in terms of the strictly-positive and strictly-negative
sample sublists. -/

/-- The strictly positive samples of a chunk, in order. -/
def posPart (l : List ℚ) : List ℚ := l.filter (fun x => decide (0 < x))

/-- The magnitudes of the strictly negative samples of a chunk, in order. -/
def negPart (l : List ℚ) : List ℚ := (l.filter (fun x => decide (x < 0))).map (fun x => -x)

/-- Maximum of a list of rationals, starting from `0` like the source's
running-peak accumulators. -/
def listMax (l : List ℚ) : ℚ := l.foldl max 0

/-- The spec's per-polarity level: `0.75 * peak_magnitude + 0.25 * mean`
when the polarity has at least one sample, `0` otherwise. -/
def levelOf (l : List ℚ) : ℚ :=
  if 0 < l.length then (3/4) * listMax l + (1/4) * (l.sum / (l.length : ℚ)) else 0

/-- Modelled from the spec: the Bander contract of section 4.1, phrased
directly on the per-polarity sample sublists (count, sum, and maximum
magnitude of strictly-positive samples and of strictly-negative samples,
zero samples contributing to neither side). -/
def bandSpecOfChunk (c : List ℚ) : ℚ × ℚ := (levelOf (posPart c), levelOf (negPart c))

lemma foldl_stepChunk_eq (l : List ℚ) (a : ChunkAcc) :
    l.foldl stepChunk a =
      ChunkAcc.mk ((posPart l).foldl max a.pos_peak) (a.pos_sum + (posPart l).sum)
        (a.pos_count + (posPart l).length)
        ((negPart l).foldl max a.neg_peak) (a.neg_sum + (negPart l).sum)
        (a.neg_count + (negPart l).length) := by
  induction l generalizing a with
  | nil =>
    simp [posPart, negPart]
  | cons x xs ih =>
    rcases lt_trichotomy x 0 with hx | hx | hx
    · have hnp : ¬ (0 < x) := by linarith
      have hstep : stepChunk a x =
          ChunkAcc.mk a.pos_peak a.pos_sum a.pos_count
            (max a.neg_peak (-x)) (a.neg_sum + (-x)) (a.neg_count + 1) := by
        simp [stepChunk, hx, hnp]
      have hpos : posPart (x :: xs) = posPart xs := by
        simp [posPart, List.filter_cons, hnp]
      have hneg : negPart (x :: xs) = (-x) :: negPart xs := by
        simp [negPart, List.filter_cons, hx]
      rw [List.foldl_cons, hstep, ih, hpos, hneg]
      simp only [List.foldl_cons, List.sum_cons, List.length_cons, ChunkAcc.mk.injEq]
      and_intros <;> first | rfl | ring | omega
    · subst hx
      have hstep : stepChunk a 0 = a := by simp [stepChunk]
      have hpos : posPart ((0 : ℚ) :: xs) = posPart xs := by
        simp [posPart, List.filter_cons]
      have hneg : negPart ((0 : ℚ) :: xs) = negPart xs := by
        simp [negPart, List.filter_cons]
      rw [List.foldl_cons, hstep, ih, hpos, hneg]
    · have hnn : ¬ (x < 0) := by linarith
      have hstep : stepChunk a x =
          ChunkAcc.mk (max a.pos_peak x) (a.pos_sum + x) (a.pos_count + 1)
            a.neg_peak a.neg_sum a.neg_count := by
        simp [stepChunk, hx]
      have hpos : posPart (x :: xs) = x :: posPart xs := by
        simp [posPart, List.filter_cons, hx]
      have hneg : negPart (x :: xs) = negPart xs := by
        simp [negPart, List.filter_cons, hnn]
      rw [List.foldl_cons, hstep, ih, hpos, hneg]
      simp only [List.foldl_cons, List.sum_cons, List.length_cons, ChunkAcc.mk.injEq]
      and_intros <;> first | rfl | ring | omega

lemma bandOfChunk_eq_spec (c : List ℚ) : bandOfChunk c = bandSpecOfChunk c := by
  unfold bandOfChunk bandSpecOfChunk levelOf listMax
  rw [foldl_stepChunk_eq]
  simp

/-- C4: for every non-empty buffer, bar `i` of the source's column loop is
exactly the spec's Bander contract applied to the `i`-th contiguous chunk of
size `ceil(len / NUM_BARS)`: per polarity, `0.75 * max + 0.25 * mean` of the
strictly-positive (resp. strictly-negative, by magnitude) samples when
present, and `0` otherwise, zero samples contributing to neither side. -/
theorem bander_partitions_and_levels (s : List ℚ) (hs : s ≠ []) (i : ℕ) (hi : i < NUM_BARS) :
    (computeColumns s).getD i ((0 : ℚ), (0 : ℚ)) = bandSpecOfChunk (chunkAt s i) := by
  have hget : (computeColumns s).getD i ((0 : ℚ), (0 : ℚ)) = bandAt s i := by
    unfold computeColumns
    rw [List.getD_eq_getElem?_getD, List.getElem?_map, List.getElem?_range hi]
    rfl
  rw [hget]
  unfold bandAt
  split
  · have hdrop : s.drop (i * chunkSize s.length) = [] :=
      List.drop_eq_nil_of_le (by omega)
    have hchunk : chunkAt s i = [] := by
      unfold chunkAt
      rw [hdrop, List.take_nil]
    rw [hchunk]
    simp [bandSpecOfChunk, levelOf, posPart, negPart]
  · split
    · rename_i hemp
      rw [List.isEmpty_iff] at hemp
      rw [hemp]
      simp [bandSpecOfChunk, levelOf, posPart, negPart]
    · exact bandOfChunk_eq_spec _

/-- Witness for bander_partitions_and_levels at the buffer `[1.0]`, bar 0. -/
theorem bander_partitions_and_levels_witness :
    (computeColumns [(1 : ℚ)]).getD 0 ((0 : ℚ), (0 : ℚ)) = bandSpecOfChunk (chunkAt [(1 : ℚ)] 0) :=
  bander_partitions_and_levels [(1 : ℚ)] (by simp) 0 (by norm_num [NUM_BARS])

/-- C5: with every frame presenting a zero frame peak (all-zero non-empty
buffers) and a nonnegative prior stored peak `p0` (every reachable peak is
nonnegative), after `n` render calls the stored peak equals
`p0 * 0.92 ^ n` exactly in this rational model. -/
theorem peak_decay_pow (v : Visualizer) (bufs : List (List ℚ)) (h0 : 0 ≤ v.peak)
    (hb : ∀ b ∈ bufs, b ≠ [] ∧ ∀ x ∈ b, x = 0) :
    (renderSeq v bufs).peak = v.peak * (23/25) ^ bufs.length :=
  renderSeq_zeros bufs v h0 hb

/-- Witness for peak_decay_pow: two silent frames from peak `1` leave
`(23/25)^2 = 529/625`. -/
theorem peak_decay_pow_witness :
    (renderSeq (Visualizer.mk 1 []) [[(0 : ℚ)], [(0 : ℚ)]]).peak = 1 * (23/25) ^ 2 :=
  peak_decay_pow (Visualizer.mk 1 []) [[(0 : ℚ)], [(0 : ℚ)]] (by norm_num)
    (by intro b hb
        rcases List.mem_cons.mp hb with h | h
        · subst h; exact ⟨by simp, by intro x hx; simpa using hx⟩
        · rw [List.mem_singleton.mp h]
          exact ⟨by simp, by intro x hx; simpa using hx⟩)

/-! Shape of the emitted frame and of the internal vectors. -/

lemma computeColumns_length (s : List ℚ) : (computeColumns s).length = NUM_BARS := by
  simp [computeColumns]

lemma smoothedColumns_length (v : Visualizer) (s : List ℚ) :
    (smoothedColumns v s).length = NUM_BARS := by
  by_cases h : v.prev_columns.length = NUM_BARS
  · simp [smoothedColumns, h, computeColumns_length]
  · simp [smoothedColumns, h, computeColumns_length]

lemma render_frame_nonempty (v : Visualizer) (s : List ℚ) (hs : s ≠ []) :
    (render v s).2 = some (composeFrame (smoothedColumns v s)) := by
  cases s with
  | nil => exact absurd rfl hs
  | cons x xs => rfl

lemma computeColumns_getD (s : List ℚ) (i : ℕ) (hi : i < NUM_BARS) :
    (computeColumns s).getD i ((0 : ℚ), (0 : ℚ)) = bandAt s i := by
  unfold computeColumns
  rw [List.getD_eq_getElem?_getD, List.getElem?_map, List.getElem?_range hi]
  rfl

/-- C8: for every non-empty input buffer of any length, the emitted frame
has exactly `TOTAL_ROWS` rows each of exactly `NUM_BARS` cells, the internal
band vector has length exactly `NUM_BARS`, and bars whose chunk starts past
the end of a short buffer are `(0, 0)`. -/
theorem frame_shape_invariant (v : Visualizer) (s : List ℚ) (hs : s ≠ []) :
    ((render v s).2).isSome = true ∧
    ((render v s).2.getD []).length = TOTAL_ROWS ∧
    ((render v s).2.getD []).map List.length = List.replicate TOTAL_ROWS NUM_BARS ∧
    (computeColumns s).length = NUM_BARS ∧
    (∀ i : ℕ, i < NUM_BARS → s.length ≤ i * chunkSize s.length →
      (computeColumns s).getD i ((0 : ℚ), (0 : ℚ)) = ((0 : ℚ), (0 : ℚ))) := by
  have hfr := render_frame_nonempty v s hs
  refine ⟨by rw [hfr]; rfl, ?_, ?_, computeColumns_length s, ?_⟩
  · rw [hfr]
    simp [composeFrame]
  · rw [hfr]
    simp only [Option.getD_some, composeFrame, List.map_map]
    have : (List.range TOTAL_ROWS).map (List.length ∘ fun row => (smoothedColumns v s).map (cellFor row)) =
        (List.range TOTAL_ROWS).map (fun _ => NUM_BARS) := by
      apply List.map_congr_left
      intro row _
      simp [smoothedColumns_length]
    rw [this]
    simp [List.map_const']
  · intro i hi hle
    rw [computeColumns_getD s i hi]
    unfold bandAt
    rw [if_pos hle]

/-- Witness for frame_shape_invariant at the one-sample buffer `[1.0]`,
taking bar 63 for the trailing-zero-band conjunct. -/
theorem frame_shape_invariant_witness :
    ((render Visualizer.new [(1 : ℚ)]).2).isSome = true ∧
    ((render Visualizer.new [(1 : ℚ)]).2.getD []).length = TOTAL_ROWS ∧
    (computeColumns [(1 : ℚ)]).getD 63 ((0 : ℚ), (0 : ℚ)) = ((0 : ℚ), (0 : ℚ)) := by
  have h := frame_shape_invariant Visualizer.new [(1 : ℚ)] (by simp)
  exact ⟨h.1, h.2.1, h.2.2.2.2 63 (by norm_num [NUM_BARS]) (by norm_num [chunkSize, NUM_BARS])⟩

/-! Totality of the pipeline arithmetic: the division denominator is clamped
strictly positive, and every value reaching `color_for` is nonnegative, so
the `powf` base is never negative. -/

lemma clamp01_nonneg (q : ℚ) : 0 ≤ clamp01 q :=
  le_min (le_max_right q 0) zero_le_one

lemma clamp01_le_one (q : ℚ) : clamp01 q ≤ 1 :=
  min_le_right _ _

lemma smoothStep_nonneg (a b : ℚ) (ha : 0 ≤ a) (hb : 0 ≤ b) : 0 ≤ smoothStep a b := by
  have h1 : (0 : ℚ) ≤ 13/20 * a := by positivity
  have h2 : (0 : ℚ) ≤ 7/20 * b := by positivity
  simp only [smoothStep, blend]
  linarith

/-- C9: the renderer's internal arithmetic is total in the model: the
normalization denominator `effectivePeak` is strictly positive for every
stored peak (so the division cannot blow up), and starting from any state
whose previous columns are nonnegative, every smoothed value stored by a
render call — exactly the values fed to `color_for`, whose `powf` would
produce NaN on a negative base — is nonnegative. -/
theorem render_math_total :
    (∀ q : ℚ, 0 < effectivePeak q) ∧
    (∀ (v : Visualizer) (s : List ℚ),
      (∀ pn ∈ v.prev_columns, 0 ≤ pn.1 ∧ 0 ≤ pn.2) →
      ∀ pn ∈ ((render v s).1).prev_columns, 0 ≤ pn.1 ∧ 0 ≤ pn.2) := by
  constructor
  · intro q
    exact lt_of_lt_of_le (by norm_num) (le_max_right q (1/1000))
  · intro v s h pn hpn
    cases s with
    | nil => exact h pn hpn
    | cons x xs =>
      rw [render_state_nonempty v (x :: xs) (by simp)] at hpn
      unfold smoothedColumns at hpn
      rcases List.mem_map.mp hpn with ⟨pb, hpb, rfl⟩
      have hprev : 0 ≤ pb.2.1 ∧ 0 ≤ pb.2.2 := by
        have hmem := (List.of_mem_zip hpb).2
        by_cases hl : v.prev_columns.length = NUM_BARS
        · rw [if_neg (by simpa using hl)] at hmem
          exact h pb.2 hmem
        · rw [if_pos (by simpa using hl)] at hmem
          rw [List.eq_of_mem_replicate hmem]
          exact ⟨le_refl 0, le_refl 0⟩
      exact ⟨smoothStep_nonneg _ _ (clamp01_nonneg _) hprev.1,
             smoothStep_nonneg _ _ (clamp01_nonneg _) hprev.2⟩

/-- Witness for render_math_total: the denominator clamp at `0` and the
first smoothed pair of a fresh render on `[1.0]`. -/
theorem render_math_total_witness :
    0 < effectivePeak 0 ∧
    0 ≤ (((render Visualizer.new [(1 : ℚ)]).1).prev_columns.getD 0 ((0 : ℚ), (0 : ℚ))).1 := by
  constructor
  · exact render_math_total.1 0
  · have hlen : 0 < ((render Visualizer.new [(1 : ℚ)]).1).prev_columns.length := by
      rw [render_state_nonempty Visualizer.new [(1 : ℚ)] (by simp),
        smoothedColumns_length Visualizer.new [(1 : ℚ)]]
      norm_num [NUM_BARS]
    have hmem : ((render Visualizer.new [(1 : ℚ)]).1).prev_columns.getD 0 ((0 : ℚ), (0 : ℚ)) ∈
        ((render Visualizer.new [(1 : ℚ)]).1).prev_columns := by
      rw [List.getD_eq_getElem?_getD, List.getElem?_eq_getElem hlen]
      exact List.getElem_mem hlen
    exact (render_math_total.2 Visualizer.new [(1 : ℚ)] (by simp [Visualizer.new]) _ hmem).1

/-! Bounds: band levels never exceed the largest sample magnitude of their
chunk, so bounded inputs give bounded levels and a bounded stored peak. -/

/-- The largest absolute value occurring in a list, starting from `0`. -/
def maxAbs (l : List ℚ) : ℚ := listMax (l.map (fun x => |x|))

lemma maxAbs_nonneg (l : List ℚ) : 0 ≤ maxAbs l := le_foldl_max _ 0

lemma abs_mem_le_maxAbs (l : List ℚ) (x : ℚ) (hx : x ∈ l) : |x| ≤ maxAbs l :=
  mem_le_foldl_max _ 0 _ (List.mem_map_of_mem _ hx)

lemma maxAbs_le (l : List ℚ) (B : ℚ) (hB : 0 ≤ B) (h : ∀ x ∈ l, |x| ≤ B) :
    maxAbs l ≤ B := by
  apply foldl_max_le _ 0 B hB
  intro y hy
  rcases List.mem_map.mp hy with ⟨x, hx, rfl⟩
  exact h x hx

lemma levelOf_nonneg (l : List ℚ) (h : ∀ x ∈ l, 0 ≤ x) : 0 ≤ levelOf l := by
  unfold levelOf
  split
  · rename_i hlen
    have hM : 0 ≤ listMax l := le_foldl_max l 0
    have hsum : 0 ≤ l.sum := List.sum_nonneg h
    have hlen' : (0 : ℚ) < l.length := by exact_mod_cast hlen
    have hdiv : 0 ≤ l.sum / (l.length : ℚ) := div_nonneg hsum (le_of_lt hlen')
    linarith [mul_nonneg (by norm_num : (0 : ℚ) ≤ 3/4) hM,
      mul_nonneg (by norm_num : (0 : ℚ) ≤ 1/4) hdiv]
  · exact le_refl 0

lemma levelOf_le (l : List ℚ) (B : ℚ) (hB : 0 ≤ B) (h : ∀ x ∈ l, x ≤ B) :
    levelOf l ≤ B := by
  unfold levelOf
  split
  · rename_i hlen
    have hM : listMax l ≤ B := foldl_max_le l 0 B hB h
    have hlen' : (0 : ℚ) < l.length := by exact_mod_cast hlen
    have hsum : l.sum ≤ (l.length : ℚ) * B := sum_le_length_mul l B h
    have hdiv : l.sum / (l.length : ℚ) ≤ B := by
      rw [div_le_iff₀ hlen']
      linarith
    linarith
  · exact hB

lemma band_le_maxAbs (c : List ℚ) :
    (bandOfChunk c).1 ≤ maxAbs c ∧ (bandOfChunk c).2 ≤ maxAbs c := by
  rw [bandOfChunk_eq_spec]
  constructor
  · apply levelOf_le _ _ (maxAbs_nonneg c)
    intro x hx
    exact le_trans (le_abs_self x) (abs_mem_le_maxAbs c x (List.mem_of_mem_filter hx))
  · apply levelOf_le _ _ (maxAbs_nonneg c)
    intro x hx
    rcases List.mem_map.mp hx with ⟨y, hy, rfl⟩
    exact le_trans (neg_le_abs y) (abs_mem_le_maxAbs c y (List.mem_of_mem_filter hy))

lemma band_nonneg (c : List ℚ) : 0 ≤ (bandOfChunk c).1 ∧ 0 ≤ (bandOfChunk c).2 := by
  rw [bandOfChunk_eq_spec]
  constructor
  · apply levelOf_nonneg
    intro x hx
    simp only [posPart, List.mem_filter, decide_eq_true_eq] at hx
    exact le_of_lt hx.2
  · apply levelOf_nonneg
    intro x hx
    simp only [negPart, List.mem_map, List.mem_filter, decide_eq_true_eq] at hx
    rcases hx with ⟨y, ⟨_, hy⟩, rfl⟩
    linarith

lemma bandAt_nonneg (s : List ℚ) (i : ℕ) :
    0 ≤ (bandAt s i).1 ∧ 0 ≤ (bandAt s i).2 := by
  unfold bandAt
  split
  · exact ⟨le_refl 0, le_refl 0⟩
  · split
    · exact ⟨le_refl 0, le_refl 0⟩
    · exact band_nonneg _

lemma bandAt_le_one (s : List ℚ) (i : ℕ) (h : ∀ x ∈ s, |x| ≤ 1) :
    (bandAt s i).1 ≤ 1 ∧ (bandAt s i).2 ≤ 1 := by
  unfold bandAt
  split
  · exact ⟨zero_le_one, zero_le_one⟩
  · split
    · exact ⟨zero_le_one, zero_le_one⟩
    · have hchunk : maxAbs (chunkAt s i) ≤ 1 :=
        maxAbs_le _ 1 zero_le_one (fun x hx => h x (mem_chunkAt_mem s i x hx))
      exact ⟨le_trans (band_le_maxAbs _).1 hchunk, le_trans (band_le_maxAbs _).2 hchunk⟩

lemma framePeak_le_one (s : List ℚ) (h : ∀ x ∈ s, |x| ≤ 1) : framePeak s ≤ 1 := by
  apply foldl_pairmax_le _ 0 1 zero_le_one
  intro b hb
  rcases List.mem_map.mp hb with ⟨i, _, rfl⟩
  exact bandAt_le_one s i h

lemma render_peak_le (v : Visualizer) (s : List ℚ) (h : ∀ x ∈ s, |x| ≤ 1) :
    ((render v s).1).peak ≤ max v.peak 1 := by
  cases s with
  | nil => exact le_max_left _ _
  | cons x xs =>
    rw [render_state_nonempty v (x :: xs) (by simp)]
    show updatePeak v.peak (framePeak (x :: xs)) ≤ max v.peak 1
    unfold updatePeak
    split
    · exact le_trans (framePeak_le_one _ h) (le_max_right _ _)
    · have h1 : v.peak ≤ max v.peak 1 := le_max_left _ _
      have h2 : framePeak (x :: xs) ≤ max v.peak 1 :=
        le_trans (framePeak_le_one _ h) (le_max_right _ _)
      linarith

lemma renderSeq_peak_le (bufs : List (List ℚ)) (v : Visualizer)
    (h : ∀ b ∈ bufs, ∀ x ∈ b, |x| ≤ 1) :
    (renderSeq v bufs).peak ≤ max v.peak 1 := by
  induction bufs generalizing v with
  | nil => exact le_max_left _ _
  | cons b rest ih =>
    have hstep := render_peak_le v b (h b (List.mem_cons_self b rest))
    have hrest := ih (render v b).1 (fun c hc => h c (List.mem_cons_of_mem b hc))
    calc (renderSeq v (b :: rest)).peak
        = (renderSeq (render v b).1 rest).peak := rfl
      _ ≤ max ((render v b).1).peak 1 := hrest
      _ ≤ max (max v.peak 1) 1 := max_le_max hstep (le_refl 1)
      _ = max v.peak 1 := by rw [max_assoc, max_self]

/-- C10: each polarity's band level is bounded by the largest sample
magnitude of its chunk (the mean of magnitudes never exceeds their maximum);
hence for buffers with samples in `[-1, 1]` every band level and the frame
peak lie in `[0, 1]`, and across any sequence of such render calls the
stored peak never exceeds `max(initial peak, 1)`. -/
theorem band_level_bounds :
    (∀ c : List ℚ, (bandOfChunk c).1 ≤ maxAbs c ∧ (bandOfChunk c).2 ≤ maxAbs c) ∧
    (∀ s : List ℚ, (∀ x ∈ s, |x| ≤ 1) →
      (0 ≤ framePeak s ∧ framePeak s ≤ 1) ∧
      ∀ b ∈ computeColumns s, (0 ≤ b.1 ∧ b.1 ≤ 1) ∧ (0 ≤ b.2 ∧ b.2 ≤ 1)) ∧
    (∀ (v : Visualizer) (bufs : List (List ℚ)),
      (∀ b ∈ bufs, ∀ x ∈ b, |x| ≤ 1) → (renderSeq v bufs).peak ≤ max v.peak 1) := by
  refine ⟨band_le_maxAbs, ?_, fun v bufs h => renderSeq_peak_le bufs v h⟩
  intro s hs
  refine ⟨⟨framePeak_nonneg s, framePeak_le_one s hs⟩, ?_⟩
  intro b hb
  rcases List.mem_map.mp hb with ⟨i, _, rfl⟩
  exact ⟨⟨(bandAt_nonneg s i).1, (bandAt_le_one s i hs).1⟩,
         ⟨(bandAt_nonneg s i).2, (bandAt_le_one s i hs).2⟩⟩

/-- Witness for band_level_bounds: the chunk `[1/2]`, the buffer `[1.0]`,
and one render call from a fresh renderer. -/
theorem band_level_bounds_witness :
    ((bandOfChunk [(1 : ℚ)/2]).1 ≤ maxAbs [(1 : ℚ)/2]) ∧
    (0 ≤ framePeak [(1 : ℚ)] ∧ framePeak [(1 : ℚ)] ≤ 1) ∧
    (renderSeq Visualizer.new [[(1 : ℚ)]]).peak ≤ max Visualizer.new.peak 1 := by
  have hone : ∀ x ∈ [(1 : ℚ)], |x| ≤ 1 := by
    intro x hx
    rw [List.mem_singleton] at hx
    subst hx
    norm_num
  refine ⟨(band_level_bounds.1 [(1 : ℚ)/2]).1,
          (band_level_bounds.2.1 [(1 : ℚ)] hone).1,
          band_level_bounds.2.2 Visualizer.new [[(1 : ℚ)]] ?_⟩
  intro b hb
  rw [List.mem_singleton] at hb
  subst hb
  exact hone

end Echoes
